import Mathlib

/-!
Shallow embedding of the skillscli resolution-and-fetch pipeline.

Strings are modelled as `List Char`; Rust's `str::split('/')`,
`str::trim_end_matches('/')`, `[&str]::join("/")` and `str::contains`
are re-implemented below with the same semantics on `List Char`.
The fallible operations return `Except`.
-/

namespace SkillsCli

/-- Rust `url.split('/')`: splits on every `'/'`, keeping empty segments;
an empty input yields the single empty segment, as in Rust. -/
def splitSlash : List Char → List (List Char)
  | [] => [[]]
  | c :: cs =>
    match splitSlash cs with
    | [] => [[]]
    | s :: ss => if c = '/' then [] :: s :: ss else (c :: s) :: ss

/-- Rust `parts.join("/")`. -/
def joinSlash : List (List Char) → List Char
  | [] => []
  | [s] => s
  | s :: ss => s ++ '/' :: joinSlash ss

/-- Rust `url.trim_end_matches('/')`: removes every trailing `'/'`. -/
def trimEndSlash (l : List Char) : List Char :=
  (l.reverse.dropWhile (fun c => c == '/')).reverse

/-- Rust `pat.is_prefix`-style check: does `s` start with `pat`? -/
def leadsWith : List Char → List Char → Bool
  | [], _ => true
  | _ :: _, [] => false
  | a :: as, b :: bs => if a = b then leadsWith as bs else false

/-- Rust `hay.contains(pat)`: substring containment. -/
def containsSub : List Char → List Char → Bool
  | [], pat => pat.isEmpty
  | c :: cs, pat => leadsWith pat (c :: cs) || containsSub cs pat

/-- `GitHubRepo` from `models.rs` / `main.rs`: the parsed
`(owner, repo, branch, path)` of a reference. -/
structure GitHubRepo where
  owner : List Char
  repo : List Char
  branch : List Char
  path : List Char
deriving DecidableEq, Repr

/-- The distinct error sites of `parse_github_url` / `extract_skill_name`. -/
inductive ParseError where
  | invalidFormat
  | githubNotFound
  | ownerNotFound
  | repoNotFound
  | branchNotFound
  | skillNameNotFound
deriving DecidableEq, Repr

instance {ε α : Type} [DecidableEq ε] [DecidableEq α] : DecidableEq (Except ε α) := by
  intro a b
  cases a <;> cases b
  case error.error e f =>
    exact if h : e = f then .isTrue (by rw [h]) else .isFalse (by simpa using h)
  case error.ok e v => exact .isFalse (by simp)
  case ok.error v e => exact .isFalse (by simp)
  case ok.ok v w =>
    exact if h : v = w then .isTrue (by rw [h]) else .isFalse (by simpa using h)

/-- `parse_github_url` (`main.rs`) = `DefaultGitHubUrlParser::parse`
(`github.rs`): trim trailing `'/'`, split on `'/'`, require at least 5
segments and the substring `"github.com"`; owner and repo are the two
segments after the first `"github.com"` segment; branch and subpath come
from the first `"tree"` segment, else default to `"main"` and `""`. -/
def parse (url : List Char) : Except ParseError GitHubRepo :=
  let u := trimEndSlash url
  let parts := splitSlash u
  if parts.length < 5 ∨ ¬ containsSub u "github.com".data = true then
    .error .invalidFormat
  else
    match parts.findIdx? (fun s => s == "github.com".data) with
    | none => .error .githubNotFound
    | some gi =>
      match parts[gi + 1]? with
      | none => .error .ownerNotFound
      | some owner =>
        match parts[gi + 2]? with
        | none => .error .repoNotFound
        | some repo =>
          match parts.findIdx? (fun s => s == "tree".data) with
          | none => .ok ⟨owner, repo, "main".data, []⟩
          | some ti =>
            match parts[ti + 1]? with
            | none => .error .branchNotFound
            | some branch =>
              .ok ⟨owner, repo, branch, joinSlash (parts.drop (ti + 2))⟩

/-- `extract_skill_name` (`github.rs` / `main.rs`): trim trailing `'/'`,
split on `'/'`, take the last segment; the `None` arm mirrors the
source's `ok_or_else` error. -/
def extract_skill_name (path : List Char) : Except ParseError (List Char) :=
  let p := trimEndSlash path
  match (splitSlash p).getLast? with
  | none => .error .skillNameNotFound
  | some n => .ok n

/-- The two target kinds of `main.rs` (`TargetType`). -/
inductive TargetType where
  | codex
  | copilot
deriving DecidableEq, Repr

/-- `TargetType::as_str` (`main.rs`). -/
def TargetType.as_str : TargetType → List Char
  | .codex => "codex".data
  | .copilot => "copilot".data

/-- `PathBuf::join` with a relative component, on `'/'`-separated paths. -/
def joinPath (a b : List Char) : List Char := a ++ '/' :: b

/-- `get_target_directory` from `main.rs`: always
`base.join(format!(".{}", target.as_str())).join("skills")`,
with no special case for any target kind. -/
def main_get_target_directory (base : List Char) (t : TargetType) : List Char :=
  joinPath (joinPath base ('.' :: t.as_str)) "skills".data

/-- The folder-name mapping of `get_target_directory` in `installer.rs`:
`".github"` when the target identifier is `"copilot"`, else `"." + id`. -/
def installer_target_folder (s : List Char) : List Char :=
  if s = "copilot".data then ".github".data else '.' :: s

/-- `get_target_directory` from `installer.rs`:
`base.join(folder_name).join("skills")` with the copilot special case. -/
def installer_get_target_directory (base : List Char) (t : TargetType) : List Char :=
  joinPath (joinPath base (installer_target_folder t.as_str)) "skills".data

/-- `MarketEntry` (`models.rs` / `main.rs`): a persisted market source. -/
structure MarketEntry where
  name : List Char
  url : List Char
deriving DecidableEq, Repr

/-- `MarketService::add_market` (`market.rs`) = `add_market` (`main.rs`),
with storage passed explicitly: `markets` is the loaded list and the
returned pair is the resulting persisted list together with a flag that
is `true` exactly when `storage.save` ran (i.e. the entry was appended). -/
def add_market (markets : List MarketEntry) (url : List Char) :
    Except ParseError (List MarketEntry × Bool) :=
  match parse url with
  | .error e => .error e
  | .ok p =>
    if markets.any (fun m => m.url == url) then .ok (markets, false)
    else .ok (markets ++ [⟨p.owner ++ '/' :: p.repo, url⟩], true)

/-- One aggregated registry row of `get_repositories`: the source tuple
`(repo_path, path, base_url, market_name)`. -/
structure RepoView where
  repoId : List Char
  subpath : List Char
  baseUrl : List Char
  sourceName : List Char
deriving DecidableEq, Repr

/-- The de-duplication key `format!("{}/{}", repo_path, parsed.path)`. -/
def repoKey (v : RepoView) : List Char := v.repoId ++ '/' :: v.subpath

/-- The hard-coded first element of `get_repositories`. -/
def defaultRepoView : RepoView :=
  ⟨"anthropics/skills".data, "skills".data,
   "https://github.com/anthropics/skills/tree/main".data, "anthropics/skills".data⟩

/-- The row `get_repositories` builds from one parsed market entry. -/
def mkView (m : MarketEntry) (p : GitHubRepo) : RepoView :=
  ⟨p.owner ++ '/' :: p.repo, p.path,
   "https://github.com/".data ++ ((p.owner ++ '/' :: p.repo) ++ ("/tree/".data ++ p.branch)),
   m.name⟩

/-- The loop of `MarketService::get_repositories` (`market.rs`) =
`get_market_repositories` (`main.rs`): parse each market URL (propagating
the error), and push its row unless its key matches one already pushed. -/
def addRepos : List RepoView → List MarketEntry → Except ParseError (List RepoView)
  | acc, [] => .ok acc
  | acc, m :: ms =>
    match parse m.url with
    | .error e => .error e
    | .ok p =>
      let v := mkView m p
      if acc.any (fun w => repoKey w == repoKey v) then addRepos acc ms
      else addRepos (acc ++ [v]) ms

/-- `MarketService::get_repositories`: the default source first, then the
de-duplicated user sources in load order. -/
def get_repositories (markets : List MarketEntry) : Except ParseError (List RepoView) :=
  addRepos [defaultRepoView] markets

/-- `GitHubContent` (`models.rs` / `main.rs`): one remote listing entry. -/
structure GitHubContent where
  name : List Char
  item_type : List Char
  path : List Char
deriving DecidableEq, Repr

/-- `SkillMatch` (`models.rs` / `main.rs`). -/
structure SkillMatch where
  name : List Char
  url : List Char
  market_name : List Char
deriving DecidableEq, Repr

/-- Rust `str::to_lowercase`, modelled per character. -/
def lowerChars (l : List Char) : List Char := l.map Char.toLower

/-- The inner loop of `find_by_name`: keep the directory entries whose
lowercased name equals the lowercased query, as `SkillMatch` rows. -/
def matchesIn (v : RepoView) (nameLower : List Char) (contents : List GitHubContent) :
    List SkillMatch :=
  contents.filterMap fun item =>
    if item.item_type = "dir".data ∧ lowerChars item.name = nameLower then
      some ⟨item.name, v.baseUrl ++ '/' :: item.path, v.sourceName⟩
    else none

/-- The per-source traversal of `SkillFinder::find_by_name`
(`skill_finder.rs`) = `find_skills_by_name` (`main.rs`): `api` models
`get_directory_contents`, with `none` for any request/status/decode
failure; a failed source is skipped (`Err(_) => continue`). -/
def findInRepos (api : List Char → List Char → Option (List GitHubContent)) :
    List RepoView → List Char → List SkillMatch
  | [], _ => []
  | v :: vs, nl =>
    (match api v.repoId v.subpath with
     | none => []
     | some contents => matchesIn v nl contents) ++ findInRepos api vs nl

/-- `SkillFinder::find_by_name` = `find_skills_by_name`: build the
registry rows (propagating parse errors), then traverse them. The
source's early return for an empty registry returns the same empty list
as the traversal itself. -/
def find_by_name (api : List Char → List Char → Option (List GitHubContent))
    (markets : List MarketEntry) (skillName : List Char) :
    Except ParseError (List SkillMatch) :=
  match get_repositories markets with
  | .error e => .error e
  | .ok repos => .ok (findInRepos api repos (lowerChars skillName))

/-- The installer error relevant to the modelled step of
`download_folder`: `"Path '{}' not found in repository"`. -/
inductive InstallError where
  | pathNotFound (path : List Char)
deriving DecidableEq, Repr

/-- The source-path computation of `DefaultGitHubDownloader::download_folder`
(`github.rs`) = `download_and_extract_github_folder` (`main.rs`):
`extract_dir.join(format!("{}-{}", repo.repo, repo.branch))`, further
joined with `repo.path` when that subpath is non-empty. -/
def source_path (extract_dir : List Char) (repo : GitHubRepo) : List Char :=
  if repo.path = [] then joinPath extract_dir (repo.repo ++ '-' :: repo.branch)
  else joinPath (joinPath extract_dir (repo.repo ++ '-' :: repo.branch)) repo.path

/-- The post-extraction step of `download_folder`: the network fetch and
zip extraction are abstracted into `extract_dir` (the directory the
archive extracted into) and `fs_exists` (the filesystem); the step
locates the source path and fails with the path-not-found error when it
does not exist, exactly as the source's `!source_path.exists()` check. -/
def download_folder (fs_exists : List Char → Bool) (extract_dir : List Char)
    (repo : GitHubRepo) : Except InstallError (List Char) :=
  let sp := source_path extract_dir repo
  if fs_exists sp then .ok sp else .error (.pathNotFound repo.path)

/-- The `owner/repo/tree/branch/subpath` portion of a well-formed reference. -/
def treePortion (o r b sub : List Char) : List Char :=
  o ++ '/' :: (r ++ '/' :: ("tree".data ++ '/' :: (b ++ '/' :: sub)))

/-- A well-formed reference URL with an explicit `tree/<branch>/<subpath>` part. -/
def treeUrl (o r b sub : List Char) : List Char :=
  "https://github.com/".data ++ treePortion o r b sub

/-- Rejoining the parsed fields `owner/repo/tree/branch/subpath` with `'/'`. -/
def rejoinRepo (g : GitHubRepo) : List Char :=
  g.owner ++ '/' :: (g.repo ++ '/' :: ("tree".data ++ '/' :: (g.branch ++ '/' :: g.path)))

/-- The registry row each market entry would contribute, in load order
(`none` for an unparseable URL). -/
def viewsList (ms : List MarketEntry) : List RepoView :=
  ms.filterMap (fun m => ((parse m.url).toOption).map (mkView m))

/-! Concrete fixtures used to exercise the operations on closed inputs. -/

/-- A remote listing holding an exact match, a superstring and a file. -/
def sampleListing : List GitHubContent :=
  [⟨"foo".data, "dir".data, "skills/foo".data⟩,
   ⟨"foobar".data, "dir".data, "skills/foobar".data⟩,
   ⟨"Readme".data, "file".data, "skills/Readme".data⟩]

/-- A listing client that answers only for the default source. -/
def sampleApi : List Char → List Char → Option (List GitHubContent) :=
  fun repoId path =>
    if repoId = "anthropics/skills".data ∧ path = "skills".data then some sampleListing
    else none

/-- A listing client for which every request fails. -/
def noApi : List Char → List Char → Option (List GitHubContent) := fun _ _ => none

/-- A filesystem on which no path exists. -/
def noFs : List Char → Bool := fun _ => false

/-- A market list whose single entry has an unparseable URL. -/
def badMarkets : List MarketEntry := [⟨"bad".data, "notaurl".data⟩]

/-- Two market entries whose URLs differ but share the de-duplication key. -/
def sampleMarkets : List MarketEntry :=
  [⟨"acme/widgets".data, "https://github.com/acme/widgets/tree/main/skills".data⟩,
   ⟨"dup".data, "https://github.com/acme/widgets/tree/main/skills/".data⟩]

/-- The registry row both entries of `sampleMarkets` denote. -/
def acmeView : RepoView :=
  ⟨"acme/widgets".data, "skills".data,
   "https://github.com/acme/widgets/tree/main".data, "acme/widgets".data⟩

/-- The registry produced from `sampleMarkets`. -/
def sampleRepoList : List RepoView := [defaultRepoView, acmeView]

/-- The match `find_by_name` produces from `sampleListing` for `"Foo"`. -/
def fooMatch : SkillMatch :=
  ⟨"foo".data, "https://github.com/anthropics/skills/tree/main/skills/foo".data,
   "anthropics/skills".data⟩

/-- A direct repository URL with no tree segment. -/
def widgetsUrl : List Char := "https://github.com/acme/widgets".data

/-- The market entry `add_market` persists for `widgetsUrl`. -/
def widgetsEntry : MarketEntry := ⟨"acme/widgets".data, widgetsUrl⟩

/-- A well-formed reference with a tree/branch/subpath part. -/
def sampleTreeUrl : List Char := "https://github.com/a/b/tree/dev/s".data

/-- The parse of `sampleTreeUrl`. -/
def sampleTreeRepo : GitHubRepo := ⟨"a".data, "b".data, "dev".data, "s".data⟩

/-- A reference as parsed from the spec scenario URL. -/
def hammerRepo : GitHubRepo :=
  ⟨"acme".data, "widgets".data, "main".data, "tools/hammer".data⟩

/-- An extraction directory for the installer model. -/
def extractedDir : List Char := "/tmp/extracted".data

/-! ### Lemmas about the string primitives -/

theorem splitSlash_ne_nil : ∀ l : List Char, splitSlash l ≠ []
  | [] => by simp [splitSlash]
  | c :: cs => by
    have ih := splitSlash_ne_nil cs
    simp only [splitSlash]
    cases h : splitSlash cs with
    | nil => exact absurd h ih
    | cons s ss => by_cases hc : c = '/' <;> simp [hc]

theorem splitSlash_append (xs ys : List Char) (h : ∀ c ∈ xs, c ≠ '/') :
    splitSlash (xs ++ '/' :: ys) = xs :: splitSlash ys := by
  induction xs with
  | nil =>
    simp only [List.nil_append, splitSlash]
    cases hy : splitSlash ys with
    | nil => exact absurd hy (splitSlash_ne_nil ys)
    | cons s ss => simp
  | cons x xs ih =>
    have hx : x ≠ '/' := h x (List.mem_cons_self _ _)
    have ih2 := ih (fun c hc => h c (List.mem_cons_of_mem _ hc))
    simp [splitSlash, ih2, hx]

theorem joinSlash_splitSlash : ∀ l : List Char, joinSlash (splitSlash l) = l
  | [] => rfl
  | c :: cs => by
    have ih := joinSlash_splitSlash cs
    simp only [splitSlash]
    cases h : splitSlash cs with
    | nil => exact absurd h (splitSlash_ne_nil cs)
    | cons s ss =>
      rw [h] at ih
      by_cases hc : c = '/'
      · subst hc
        simp only [if_pos rfl, joinSlash, List.nil_append]
        rw [ih]
      · simp only [if_neg hc]
        cases ss with
        | nil => simpa [joinSlash] using congrArg (c :: ·) ih
        | cons t ts => simpa [joinSlash] using congrArg (c :: ·) ih

theorem trimEndSlash_eq_self (l : List Char) (h : l.getLast? ≠ some '/') :
    trimEndSlash l = l := by
  unfold trimEndSlash
  cases hr : l.reverse with
  | nil =>
    have : l = [] := by simpa using congrArg List.reverse hr
    simp [this]
  | cons c t =>
    have hc : ¬ (c == '/') = true := by
      intro hcc
      rw [beq_iff_eq] at hcc
      subst hcc
      exact h (by rw [List.getLast?_eq_head?_reverse, hr]; rfl)
    have hd : List.dropWhile (fun x => x == '/') (c :: t) = c :: t :=
      List.dropWhile_cons_of_neg hc
    rw [hd, ← hr, List.reverse_reverse]

theorem trimEndSlash_append_slash (l : List Char) :
    trimEndSlash (l ++ ['/']) = trimEndSlash l := by
  unfold trimEndSlash
  rw [List.reverse_append]
  simp [List.dropWhile_cons_of_pos]

theorem leadsWith_append_self : ∀ pat rest : List Char, leadsWith pat (pat ++ rest) = true
  | [], _ => rfl
  | a :: as, rest => by simp [leadsWith, leadsWith_append_self as rest]

theorem containsSub_of_leadsWith :
    ∀ pre tail pat : List Char, leadsWith pat tail = true →
      containsSub (pre ++ tail) pat = true := by
  intro pre
  induction pre with
  | nil =>
    intro tail pat h
    cases tail with
    | nil =>
      cases pat with
      | nil => rfl
      | cons a as => simp [leadsWith] at h
    | cons c cs => simp [containsSub, h]
  | cons p ps ih =>
    intro tail pat h
    simp [containsSub, ih tail pat h]

/-! ### Evaluation of `parse` on well-formed tree references -/

theorem findIdxQ_cons_pos (p : List Char → Bool) (x : List Char) (xs : List (List Char))
    (i : Nat) (h : p x = true) : (x :: xs).findIdx? p i = some i := by
  simp [List.findIdx?_cons, h]

theorem findIdxQ_cons_neg (p : List Char → Bool) (x : List Char) (xs : List (List Char))
    (i : Nat) (h : p x = false) : (x :: xs).findIdx? p i = xs.findIdx? p (i + 1) := by
  simp [List.findIdx?_cons, h]

theorem parse_eval_tree (u u0 o r b sub : List Char)
    (hu : trimEndSlash u = u0)
    (hsplit : splitSlash u0 =
      "https:".data :: [] :: "github.com".data :: o :: r :: "tree".data :: b :: splitSlash sub)
    (hcont : containsSub u0 "github.com".data = true)
    (ho : (o == "tree".data) = false) (hr : (r == "tree".data) = false) :
    parse u = .ok ⟨o, r, b, sub⟩ := by
  simp only [parse, hu, hsplit]
  rw [findIdxQ_cons_neg _ _ _ _ (by decide), findIdxQ_cons_neg _ _ _ _ (by decide),
      findIdxQ_cons_pos _ _ _ _ (by decide)]
  rw [findIdxQ_cons_neg _ _ _ _ (by decide), findIdxQ_cons_neg _ _ _ _ (by decide),
      findIdxQ_cons_neg _ _ _ _ (by decide), findIdxQ_cons_neg (fun s => s == "tree".data) o _ _ ho,
      findIdxQ_cons_neg (fun s => s == "tree".data) r _ _ hr, findIdxQ_cons_pos _ _ _ _ (by decide)]
  rw [if_neg (by
    rw [not_or]
    refine ⟨by simp only [List.length_cons]; omega, by simp [hcont]⟩)]
  simp only [Nat.reduceAdd, List.getElem?_cons_succ, List.getElem?_cons_zero,
    List.drop_succ_cons, List.drop_zero, joinSlash_splitSlash]

theorem treeUrl_last_shape (o r b sub : List Char) :
    treeUrl o r b sub =
      ("https://github.com/".data ++
        (o ++ '/' :: (r ++ '/' :: ("tree".data ++ '/' :: (b ++ ['/']))))) ++ sub := by
  simp [treeUrl, treePortion]

theorem splitSlash_treeUrl (o r b sub : List Char)
    (ho : '/' ∉ o) (hr : '/' ∉ r) (hb : '/' ∉ b) :
    splitSlash (treeUrl o r b sub) =
      "https:".data :: [] :: "github.com".data :: o :: r :: "tree".data :: b :: splitSlash sub := by
  have h1 : treeUrl o r b sub =
      "https:".data ++ '/' :: ([] ++ '/' :: ("github.com".data ++ '/' ::
        (o ++ '/' :: (r ++ '/' :: ("tree".data ++ '/' :: (b ++ '/' :: sub)))))) := rfl
  rw [h1, splitSlash_append _ _ (by decide), splitSlash_append _ _ (by simp),
      splitSlash_append _ _ (by decide),
      splitSlash_append _ _ (fun c hc he => ho (he ▸ hc)),
      splitSlash_append _ _ (fun c hc he => hr (he ▸ hc)),
      splitSlash_append _ _ (by decide),
      splitSlash_append _ _ (fun c hc he => hb (he ▸ hc))]

theorem containsSub_treeUrl (o r b sub : List Char) :
    containsSub (treeUrl o r b sub) "github.com".data = true := by
  have h1 : treeUrl o r b sub =
      "https://".data ++ ("github.com".data ++ ('/' :: treePortion o r b sub)) := rfl
  rw [h1]
  exact containsSub_of_leadsWith _ _ _ (leadsWith_append_self _ _)

example : parse "https://github.com/acme/widgets/tree/main/tools/hammer".data =
    .ok ⟨"acme".data, "widgets".data, "main".data, "tools/hammer".data⟩ := by decide

example : parse "https://github.com/acme/widgets".data =
    .ok ⟨"acme".data, "widgets".data, "main".data, []⟩ := by decide

example : extract_skill_name [] = .ok [] := by decide

example : parse "tree/x/github.com/owner/repo".data =
    .ok ⟨"owner".data, "repo".data, "x".data, "github.com/owner/repo".data⟩ := by decide

/-! ### Lemmas about the market registry loop -/

theorem addRepos_append : ∀ (ms : List MarketEntry) (acc l : List RepoView),
    addRepos acc ms = .ok l → ∃ ext, l = acc ++ ext ∧ ext.Sublist (viewsList ms) := by
  intro ms
  induction ms with
  | nil =>
    intro acc l h
    simp only [addRepos] at h
    cases h
    exact ⟨[], by simp, by simp [viewsList]⟩
  | cons m ms ih =>
    intro acc l h
    simp only [addRepos] at h
    split at h
    · simp at h
    · next p hp =>
      have hv : viewsList (m :: ms) = mkView m p :: viewsList ms := by
        simp [viewsList, List.filterMap_cons, hp, Except.toOption]
      split at h
      · obtain ⟨ext, rfl, hs⟩ := ih acc l h
        exact ⟨ext, rfl, by rw [hv]; exact hs.cons _⟩
      · obtain ⟨ext, hl, hs⟩ := ih _ l h
        refine ⟨mkView m p :: ext, by simpa using hl, ?_⟩
        rw [hv]
        exact hs.cons₂ _

theorem addRepos_pairwise : ∀ (ms : List MarketEntry) (acc l : List RepoView),
    addRepos acc ms = .ok l →
    acc.Pairwise (fun a b => repoKey a ≠ repoKey b) →
    l.Pairwise (fun a b => repoKey a ≠ repoKey b) := by
  intro ms
  induction ms with
  | nil =>
    intro acc l h hacc
    simp only [addRepos] at h
    cases h
    exact hacc
  | cons m ms ih =>
    intro acc l h hacc
    simp only [addRepos] at h
    split at h
    · simp at h
    · next p hp =>
      split at h
      · exact ih acc l h hacc
      · next hdup =>
        refine ih _ l h ?_
        rw [List.pairwise_append]
        refine ⟨hacc, by simp, fun a ha b hb => ?_⟩
        have hb2 : b = mkView m p := by simpa using hb
        subst hb2
        have := (List.any_eq_false.mp (Bool.eq_false_iff.mpr hdup)) a ha
        simpa using this

theorem addRepos_covers : ∀ (ms : List MarketEntry) (acc l : List RepoView),
    addRepos acc ms = .ok l →
    (∀ w ∈ acc, w ∈ l) ∧
    (∀ m ∈ ms, ∀ p, parse m.url = .ok p → ∃ w ∈ l, repoKey w = repoKey (mkView m p)) := by
  intro ms
  induction ms with
  | nil =>
    intro acc l h
    simp only [addRepos] at h
    cases h
    exact ⟨fun w hw => hw, by simp⟩
  | cons m ms ih =>
    intro acc l h
    simp only [addRepos] at h
    split at h
    · simp at h
    · next p hp =>
      split at h
      · next hdup =>
        obtain ⟨hacc, hcov⟩ := ih acc l h
        refine ⟨hacc, fun m2 hm2 p2 hp2 => ?_⟩
        rcases List.mem_cons.mp hm2 with h1 | h1
        · subst h1
          rw [hp] at hp2
          cases hp2
          obtain ⟨w, hw, hkey⟩ := List.any_eq_true.mp hdup
          exact ⟨w, hacc w hw, by simpa using hkey⟩
        · exact hcov m2 h1 p2 hp2
      · obtain ⟨hacc, hcov⟩ := ih _ l h
        refine ⟨fun w hw => hacc w (List.mem_append_left _ hw), fun m2 hm2 p2 hp2 => ?_⟩
        rcases List.mem_cons.mp hm2 with h1 | h1
        · subst h1
          rw [hp] at hp2
          cases hp2
          exact ⟨mkView m2 p, hacc _ (by simp), rfl⟩
        · exact hcov m2 h1 p2 hp2

theorem addRepos_error : ∀ (ms : List MarketEntry) (acc : List RepoView)
    (m : MarketEntry) (e : ParseError),
    m ∈ ms → parse m.url = .error e → ∃ e2, addRepos acc ms = .error e2 := by
  intro ms
  induction ms with
  | nil => intro acc m e hm; exact absurd hm (by simp)
  | cons m0 ms ih =>
    intro acc m e hm he
    cases hp : parse m0.url with
    | error e0 => exact ⟨e0, by simp [addRepos, hp]⟩
    | ok p =>
      rcases List.mem_cons.mp hm with h1 | h1
      · subst h1; rw [he] at hp; cases hp
      · simp only [addRepos, hp]
        by_cases hdup : (acc.any fun w => repoKey w == repoKey (mkView m0 p)) = true
        · rw [if_pos hdup]; exact ih acc m e h1 he
        · rw [if_neg hdup]; exact ih _ m e h1 he

/-! ### Inversion and traversal lemmas -/

theorem parse_ok_first_tree (url : List Char) (g : GitHubRepo) (h : parse url = .ok g) :
    ((splitSlash (trimEndSlash url)).findIdx? (fun s => s == "tree".data) = none →
       g.branch = "main".data ∧ g.path = []) ∧
    (∀ ti, (splitSlash (trimEndSlash url)).findIdx? (fun s => s == "tree".data) = some ti →
       (splitSlash (trimEndSlash url))[ti + 1]? = some g.branch ∧
       g.path = joinSlash ((splitSlash (trimEndSlash url)).drop (ti + 2))) := by
  simp only [parse] at h
  split at h
  · exact absurd h (by simp)
  · split at h
    · exact absurd h (by simp)
    · split at h
      · exact absurd h (by simp)
      · split at h
        · exact absurd h (by simp)
        · split at h
          · next heq =>
            cases h
            refine ⟨fun _ => ⟨rfl, rfl⟩, fun ti hti => ?_⟩
            rw [heq] at hti
            cases hti
          · next ti heq =>
            split at h
            · exact absurd h (by simp)
            · next branch hget =>
              cases h
              refine ⟨fun hn => ?_, fun ti2 hti2 => ?_⟩
              · rw [heq] at hn; cases hn
              · rw [heq] at hti2
                cases hti2
                exact ⟨hget, rfl⟩

theorem parse_treeUrl (o r b sub : List Char)
    (ho : '/' ∉ o) (hr : '/' ∉ r) (hb : '/' ∉ b)
    (hot : o ≠ "tree".data) (hrt : r ≠ "tree".data)
    (hsub : sub ≠ []) (hlast : sub.getLast? ≠ some '/') :
    parse (treeUrl o r b sub) = .ok ⟨o, r, b, sub⟩ ∧
    parse (treeUrl o r b sub ++ ['/']) = .ok ⟨o, r, b, sub⟩ ∧
    rejoinRepo ⟨o, r, b, sub⟩ = treePortion o r b sub := by
  have htrim : trimEndSlash (treeUrl o r b sub) = treeUrl o r b sub := by
    apply trimEndSlash_eq_self
    rw [treeUrl_last_shape, List.getLast?_append_of_ne_nil _ hsub]
    exact hlast
  have hsplit := splitSlash_treeUrl o r b sub ho hr hb
  have hcont := containsSub_treeUrl o r b sub
  have hob : (o == "tree".data) = false := beq_eq_false_iff_ne.mpr hot
  have hrb : (r == "tree".data) = false := beq_eq_false_iff_ne.mpr hrt
  refine ⟨parse_eval_tree _ _ _ _ _ _ htrim hsplit hcont hob hrb, ?_, rfl⟩
  have htrim2 : trimEndSlash (treeUrl o r b sub ++ ['/']) = treeUrl o r b sub := by
    rw [trimEndSlash_append_slash, htrim]
  exact parse_eval_tree _ _ _ _ _ _ htrim2 hsplit hcont hob hrb

theorem mem_findInRepos (api : List Char → List Char → Option (List GitHubContent)) :
    ∀ (repos : List RepoView) (nl : List Char) (m : SkillMatch),
    m ∈ findInRepos api repos nl ↔
      ∃ v ∈ repos, ∃ cs, api v.repoId v.subpath = some cs ∧
        ∃ item ∈ cs, item.item_type = "dir".data ∧ lowerChars item.name = nl ∧
          m = ⟨item.name, v.baseUrl ++ '/' :: item.path, v.sourceName⟩ := by
  intro repos
  induction repos with
  | nil => intro nl m; simp [findInRepos]
  | cons v vs ih =>
    intro nl m
    simp only [findInRepos, List.mem_append, ih, List.mem_cons]
    cases hapi : api v.repoId v.subpath with
    | none =>
      constructor
      · rintro (hin | ⟨v2, hv2, rest⟩)
        · simp at hin
        · exact ⟨v2, Or.inr hv2, rest⟩
      · rintro ⟨v2, hv2 | hv2, cs, hcs, rest⟩
        · subst hv2; rw [hapi] at hcs; cases hcs
        · exact Or.inr ⟨v2, hv2, cs, hcs, rest⟩
    | some cs =>
      constructor
      · rintro (hin | ⟨v2, hv2, rest⟩)
        · simp only [matchesIn, List.mem_filterMap] at hin
          obtain ⟨item, hitem, hif⟩ := hin
          rw [Option.ite_none_right_eq_some] at hif
          obtain ⟨⟨ht, hn⟩, heq⟩ := hif
          exact ⟨v, Or.inl rfl, cs, hapi, item, hitem, ht, hn, (Option.some_inj.mp heq).symm⟩
        · exact ⟨v2, Or.inr hv2, rest⟩
      · rintro ⟨v2, hv2 | hv2, cs2, hcs2, item, hitem, ht, hn, heq⟩
        · subst hv2
          rw [hapi] at hcs2
          cases hcs2
          refine Or.inl ?_
          simp only [matchesIn, List.mem_filterMap]
          exact ⟨item, hitem, by rw [Option.ite_none_right_eq_some]; exact ⟨⟨ht, hn⟩, Option.some_inj.mpr heq.symm⟩⟩
        · exact Or.inr ⟨v2, hv2, cs2, hcs2, item, hitem, ht, hn, heq⟩

/-! ### Claim theorems -/

/-- C1: contrary to the claim, `extract_skill_name` never fails: on an empty
subpath (or one that is only separators) it returns the empty name, so the
install-from-URL path derives an empty install name instead of erroring. -/
theorem extract_skill_name_never_errors :
    (∀ p, ∃ n, extract_skill_name p = .ok n) ∧
    extract_skill_name [] = .ok [] ∧
    extract_skill_name ['/'] = .ok [] ∧
    (parse widgetsUrl).map (fun g => g.path) = .ok [] := by
  refine ⟨fun p => ?_, by decide, by decide, by decide⟩
  cases h : (splitSlash (trimEndSlash p)).getLast? with
  | none => exact absurd (List.getLast?_eq_none_iff.mp h) (splitSlash_ne_nil _)
  | some n =>
    refine ⟨n, ?_⟩
    simp only [extract_skill_name]
    rw [h]

/-- C2 counterexample: for the copilot target kind the `main.rs` install path
computes `<root>/.copilot/skills` while the `installer.rs` path computes
`<root>/.github/skills`, so the same mapping is not applied by every install
path. -/
theorem get_target_directory_copilot_divergence :
    main_get_target_directory "/home/u".data .copilot ≠
      installer_get_target_directory "/home/u".data .copilot ∧
    main_get_target_directory "/home/u".data .copilot = "/home/u/.copilot/skills".data ∧
    installer_get_target_directory "/home/u".data .copilot = "/home/u/.github/skills".data := by
  decide

/-- C2 amended: the `installer.rs` path maps copilot to `.github` and every
other kind to `.` + identifier, while the `main.rs` path uses `.` + identifier
for every kind, copilot included; both then append the fixed `skills` folder. -/
theorem get_target_directory_mappings (base : List Char) :
    installer_get_target_directory base .copilot =
      joinPath (joinPath base ".github".data) "skills".data ∧
    installer_get_target_directory base .codex =
      joinPath (joinPath base ".codex".data) "skills".data ∧
    main_get_target_directory base .copilot =
      joinPath (joinPath base ".copilot".data) "skills".data ∧
    main_get_target_directory base .codex =
      joinPath (joinPath base ".codex".data) "skills".data :=
  ⟨rfl, rfl, rfl, rfl⟩

/-- C3 counterexample: the parser accepts a reference whose only `"tree"`
segment lies before the host marker (which sits at index 2), and still takes
branch and subpath from it instead of defaulting to `main` and `""`. -/
theorem parse_takes_tree_before_host_marker :
    parse "tree/x/github.com/owner/repo".data =
      .ok ⟨"owner".data, "repo".data, "x".data, "github.com/owner/repo".data⟩ ∧
    (splitSlash (trimEndSlash "tree/x/github.com/owner/repo".data)).findIdx?
        (fun s => s == "github.com".data) = some 2 ∧
    (∀ seg ∈ (splitSlash (trimEndSlash "tree/x/github.com/owner/repo".data)).drop 3,
        seg ≠ "tree".data) ∧
    "x".data ≠ "main".data := by
  decide

/-- C7: the installer looks for `"{repo}-{branch}"` inside the extraction
directory, joined with the subpath exactly when the subpath is non-empty, and
fails with the path-not-found error when that source path does not exist. -/
theorem download_folder_source_path_spec (fs : List Char → Bool) (dir : List Char)
    (repo : GitHubRepo) :
    (repo.path = [] → source_path dir repo = joinPath dir (repo.repo ++ '-' :: repo.branch)) ∧
    (repo.path ≠ [] → source_path dir repo =
       joinPath (joinPath dir (repo.repo ++ '-' :: repo.branch)) repo.path) ∧
    (fs (source_path dir repo) = false →
       download_folder fs dir repo = .error (.pathNotFound repo.path)) := by
  refine ⟨fun h => by simp [source_path, h], fun h => by simp [source_path, h],
    fun h => by simp [download_folder, h]⟩

/-- C7 witness: for the spec scenario reference, the installer looks for
`widgets-main/tools/hammer` inside the extraction directory and fails with
the path-not-found error on a filesystem where it is absent. -/
theorem download_folder_source_path_spec_witness :
    hammerRepo.path ≠ [] ∧
    noFs (source_path extractedDir hammerRepo) = false ∧
    source_path extractedDir hammerRepo =
      joinPath (joinPath extractedDir (hammerRepo.repo ++ '-' :: hammerRepo.branch))
        hammerRepo.path ∧
    download_folder noFs extractedDir hammerRepo = .error (.pathNotFound hammerRepo.path) ∧
    source_path extractedDir hammerRepo = "/tmp/extracted/widgets-main/tools/hammer".data :=
  ⟨by decide, rfl,
   (download_folder_source_path_spec noFs extractedDir hammerRepo).2.1 (by decide),
   (download_folder_source_path_spec noFs extractedDir hammerRepo).2.2 rfl,
   by decide⟩

/-- C10: duplicate detection in `add_market` compares URLs verbatim: the same
repository URL with and without a trailing slash (which parse identically)
yields two persisted entries. -/
theorem add_market_compares_urls_verbatim :
    add_market [] widgetsUrl = .ok ([widgetsEntry], true) ∧
    add_market [widgetsEntry] (widgetsUrl ++ ['/']) =
      .ok ([widgetsEntry, ⟨"acme/widgets".data, widgetsUrl ++ ['/']⟩], true) ∧
    widgetsUrl ≠ widgetsUrl ++ ['/'] ∧
    parse widgetsUrl = parse (widgetsUrl ++ ['/']) := by
  decide

/-- C3 amended witness: the inversion facts of `parse_ok_first_tree`
instantiated at a concrete reference with a tree segment. -/
theorem parse_ok_first_tree_witness :
    parse sampleTreeUrl = .ok sampleTreeRepo ∧
    (((splitSlash (trimEndSlash sampleTreeUrl)).findIdx? (fun s => s == "tree".data) = none →
        sampleTreeRepo.branch = "main".data ∧ sampleTreeRepo.path = []) ∧
     (∀ ti, (splitSlash (trimEndSlash sampleTreeUrl)).findIdx? (fun s => s == "tree".data) =
          some ti →
        (splitSlash (trimEndSlash sampleTreeUrl))[ti + 1]? = some sampleTreeRepo.branch ∧
        sampleTreeRepo.path =
          joinSlash ((splitSlash (trimEndSlash sampleTreeUrl)).drop (ti + 2)))) :=
  ⟨by decide, parse_ok_first_tree sampleTreeUrl sampleTreeRepo (by decide)⟩

/-- C4: whenever `get_repositories` succeeds, no two rows share the
de-duplication key, the default source is the head, the remaining rows are a
subsequence of the per-market rows in load order, and every parseable market
is represented by a row with its key (first seen wins). -/
theorem get_repositories_invariants (markets : List MarketEntry) (l : List RepoView)
    (h : get_repositories markets = .ok l) :
    l.Pairwise (fun a b => repoKey a ≠ repoKey b) ∧
    l.head? = some defaultRepoView ∧
    l.tail.Sublist (viewsList markets) ∧
    (∀ m ∈ markets, ∀ p, parse m.url = .ok p → ∃ w ∈ l, repoKey w = repoKey (mkView m p)) := by
  obtain ⟨ext, hl, hs⟩ := addRepos_append markets [defaultRepoView] l h
  subst hl
  exact ⟨addRepos_pairwise markets _ _ h (by simp), by simp, by simpa using hs,
    (addRepos_covers markets _ _ h).2⟩

/-- C4 witness: two market entries with textually different URLs but the same
key collapse to one row after the default source. -/
theorem get_repositories_invariants_witness :
    get_repositories sampleMarkets = .ok sampleRepoList ∧
    (sampleRepoList.Pairwise (fun a b => repoKey a ≠ repoKey b) ∧
     sampleRepoList.head? = some defaultRepoView ∧
     sampleRepoList.tail.Sublist (viewsList sampleMarkets) ∧
     (∀ m ∈ sampleMarkets, ∀ p, parse m.url = .ok p →
        ∃ w ∈ sampleRepoList, repoKey w = repoKey (mkView m p))) :=
  ⟨by decide, get_repositories_invariants sampleMarkets sampleRepoList (by decide)⟩

/-- C5: a match is returned by `find_by_name` exactly when some registry row
has a listing containing a directory entry whose lowercased name equals the
lowercased query, and the match carries the entry name, the row base URL
joined with the entry path, and the row source name. -/
theorem find_by_name_matches (api : List Char → List Char → Option (List GitHubContent))
    (markets : List MarketEntry) (nm : List Char) (repos : List RepoView)
    (l : List SkillMatch)
    (hrepos : get_repositories markets = .ok repos)
    (hfind : find_by_name api markets nm = .ok l) :
    ∀ m, m ∈ l ↔ ∃ v ∈ repos, ∃ cs, api v.repoId v.subpath = some cs ∧
      ∃ item ∈ cs, item.item_type = "dir".data ∧ lowerChars item.name = lowerChars nm ∧
        m = ⟨item.name, v.baseUrl ++ '/' :: item.path, v.sourceName⟩ := by
  simp only [find_by_name, hrepos] at hfind
  cases hfind
  exact fun m => mem_findInRepos api repos (lowerChars nm) m

/-- C5 witness: `"Foo"` matches the directory entry `"foo"` but neither
`"foobar"` nor the file entry. -/
theorem find_by_name_matches_witness :
    get_repositories [] = .ok [defaultRepoView] ∧
    find_by_name sampleApi [] "Foo".data = .ok [fooMatch] ∧
    (∀ m, m ∈ [fooMatch] ↔ ∃ v ∈ [defaultRepoView], ∃ cs,
        sampleApi v.repoId v.subpath = some cs ∧
        ∃ item ∈ cs, item.item_type = "dir".data ∧
          lowerChars item.name = lowerChars "Foo".data ∧
          m = ⟨item.name, v.baseUrl ++ '/' :: item.path, v.sourceName⟩) :=
  ⟨by decide, by decide,
   find_by_name_matches sampleApi [] "Foo".data [defaultRepoView] [fooMatch]
     (by decide) (by decide)⟩

/-- C6: an unparseable market URL makes `get_repositories` (and hence
`find_by_name`) fail as a whole, whereas a failed per-source listing inside
the traversal contributes nothing and the remaining sources are processed. -/
theorem error_propagation_asymmetry :
    (∀ (markets : List MarketEntry) (m : MarketEntry) (e : ParseError),
       m ∈ markets → parse m.url = .error e →
       ∃ e2, get_repositories markets = .error e2 ∧
         ∀ (api : List Char → List Char → Option (List GitHubContent)) (nm : List Char),
           find_by_name api markets nm = .error e2) ∧
    (∀ (api : List Char → List Char → Option (List GitHubContent)) (v : RepoView)
       (vs : List RepoView) (nl : List Char),
       api v.repoId v.subpath = none →
       findInRepos api (v :: vs) nl = findInRepos api vs nl) := by
  constructor
  · intro markets m e hm he
    obtain ⟨e2, h2⟩ := addRepos_error markets [defaultRepoView] m e hm he
    have hg : get_repositories markets = .error e2 := h2
    exact ⟨e2, hg, fun api nm => by simp [find_by_name, hg]⟩
  · intro api v vs nl h
    simp [findInRepos, h]

/-- C6 witness: a registry with one bad URL fails wholesale, while the
traversal over the default source with a failing listing client reduces to
the traversal over no sources. -/
theorem error_propagation_asymmetry_witness :
    parse "notaurl".data = .error ParseError.invalidFormat ∧
    (∃ e2, get_repositories badMarkets = .error e2 ∧
       ∀ (api : List Char → List Char → Option (List GitHubContent)) (nm : List Char),
         find_by_name api badMarkets nm = .error e2) ∧
    noApi defaultRepoView.repoId defaultRepoView.subpath = none ∧
    findInRepos noApi [defaultRepoView] "x".data = findInRepos noApi [] "x".data :=
  ⟨by decide,
   error_propagation_asymmetry.1 badMarkets ⟨"bad".data, "notaurl".data⟩
     ParseError.invalidFormat (by decide) (by decide),
   rfl,
   error_propagation_asymmetry.2 noApi defaultRepoView [] "x".data rfl⟩

/-- C8: adding a fresh URL appends exactly one entry (and persists); adding
the identical URL again mutates nothing and does not persist, leaving exactly
one entry for that URL. -/
theorem add_market_dedup (markets : List MarketEntry) (url : List Char) (p : GitHubRepo)
    (hp : parse url = .ok p) (hnew : ∀ m ∈ markets, m.url ≠ url) :
    add_market markets url = .ok (markets ++ [⟨p.owner ++ '/' :: p.repo, url⟩], true) ∧
    add_market (markets ++ [⟨p.owner ++ '/' :: p.repo, url⟩]) url =
      .ok (markets ++ [⟨p.owner ++ '/' :: p.repo, url⟩], false) ∧
    ((markets ++ [(⟨p.owner ++ '/' :: p.repo, url⟩ : MarketEntry)]).filter
        (fun m => m.url == url)).length = 1 := by
  have hany : (markets.any fun m => m.url == url) = false := by
    rw [List.any_eq_false]
    intro m hm
    simpa using hnew m hm
  have hfil : markets.filter (fun m => m.url == url) = [] := by
    rw [List.filter_eq_nil_iff]
    intro m hm
    simpa using hnew m hm
  refine ⟨?_, ?_, ?_⟩
  · simp only [add_market, hp]
    rw [if_neg (by simp [hany])]
  · simp only [add_market, hp]
    rw [if_pos (by simp [List.any_append])]
  · rw [List.filter_append, hfil]
    simp

/-- C8 witness: adding `widgetsUrl` twice to an empty store persists exactly
one entry for it. -/
theorem add_market_dedup_witness :
    parse widgetsUrl = .ok ⟨"acme".data, "widgets".data, "main".data, []⟩ ∧
    (∀ m ∈ ([] : List MarketEntry), m.url ≠ widgetsUrl) ∧
    (add_market [] widgetsUrl = .ok ([widgetsEntry], true) ∧
     add_market [widgetsEntry] widgetsUrl = .ok ([widgetsEntry], false) ∧
     ([widgetsEntry].filter (fun m => m.url == widgetsUrl)).length = 1) :=
  ⟨by decide, by simp,
   add_market_dedup [] widgetsUrl ⟨"acme".data, "widgets".data, "main".data, []⟩
     (by decide) (by simp)⟩

/-- C9 witness: the spec scenario reference round-trips, with and without a
trailing separator. -/
theorem parse_treeUrl_witness :
    ('/' ∉ "acme".data) ∧ ('/' ∉ "widgets".data) ∧ ('/' ∉ "main".data) ∧
    "acme".data ≠ "tree".data ∧ "widgets".data ≠ "tree".data ∧
    "tools/hammer".data ≠ ([] : List Char) ∧
    "tools/hammer".data.getLast? ≠ some '/' ∧
    (parse (treeUrl "acme".data "widgets".data "main".data "tools/hammer".data) =
       .ok ⟨"acme".data, "widgets".data, "main".data, "tools/hammer".data⟩ ∧
     parse (treeUrl "acme".data "widgets".data "main".data "tools/hammer".data ++ ['/']) =
       .ok ⟨"acme".data, "widgets".data, "main".data, "tools/hammer".data⟩ ∧
     rejoinRepo ⟨"acme".data, "widgets".data, "main".data, "tools/hammer".data⟩ =
       treePortion "acme".data "widgets".data "main".data "tools/hammer".data) :=
  ⟨by decide, by decide, by decide, by decide, by decide, by decide, by decide,
   parse_treeUrl "acme".data "widgets".data "main".data "tools/hammer".data
     (by decide) (by decide) (by decide) (by decide) (by decide) (by decide) (by decide)⟩

end SkillsCli
